import Mathlib

/-!
Shallow embedding of the inline content engine of the 4v8 editor
(src/packages/shibuya-editor/utils/block.ts) together with the parts of the
surrounding data model the verified properties need.  JavaScript strings are
modelled as lists of code units (List Char), JavaScript numbers occurring in
these algorithms as integers.
-/

/-- Characters of a JavaScript string, modelled as a list of code units. -/
abbrev JStr := List Char

/-- The zero-width no-break space U+FEFF, used by the editor as the
empty-content sentinel character. -/
def feff : Char := Char.ofNat 0xFEFF

/-- Removal of every U+FEFF character from a string; models
s.replaceAll over the sentinel, as done in getBlockLength and
getInlineContents. -/
def stripFeff (s : JStr) : JStr := s.filter (fun ch => ch != feff)

/-- Normalisation of one bound of a JavaScript String.prototype.slice call:
a negative value counts from the end of the string, a large value is clamped
to the length. -/
def sliceBound (n : Nat) (v : Int) : Nat :=
  if v < 0 then ((n : Int) + v).toNat else min v.toNat n

/-- JavaScript String.prototype.slice with two arguments. -/
def jsSlice (s : JStr) (a b : Int) : JStr :=
  let st := sliceBound s.length a
  let en := sliceBound s.length b
  (s.drop st).take (en - st)

/-- JavaScript String.prototype.slice with one argument (slice to the end). -/
def jsSliceFrom (s : JStr) (a : Int) : JStr :=
  s.drop (sliceBound s.length a)

/-- An inline run (types/inline.ts): id, attributes, text, type tag and embed
flag.  Attribute keys and values are modelled as strings. -/
structure Inline where
  id : JStr
  attributes : List (JStr × JStr)
  text : JStr
  type : JStr
  isEmbed : Bool
deriving DecidableEq

/-- Modelled from the spec: the isEmbed predicate of utils/inline.ts (the
file itself is not under src/, only its import) — true exactly when the type
tag is one of the embeddable kinds, which the spec names as images and
mentions (spec section 3). -/
def isEmbed (t : JStr) : Bool := t == "IMAGE".data || t == "MENTION".data

/-- Modelled from the spec: createInline of utils/inline.ts (not under
src/) — a fresh text run with empty text, used as the placeholder run that
replaces empty content (spec sections 3, 4.1 and 4.3).  The nanoid-generated
id is modelled by a fixed string because no verified property depends on its
value. -/
def createInline (t : JStr) : Inline :=
  { id := "fresh-id".data, attributes := [], text := [], type := t,
    isEmbed := isEmbed t }

/-- Linear length of one run, the inlineLength computed by each walk in
utils/block.ts: an embed counts 1, a text run its character count. -/
def inlineLen (r : Inline) : Int := if r.isEmbed then 1 else (r.text.length : Int)

/-- Total linear length of a content sequence. -/
def contentsLength (c : List Inline) : Int := (c.map inlineLen).sum

/-- The loop of deleteInlineContents (utils/block.ts, lines 131-161).
startIndex is the original index argument, the second Int argument the
remaining length budget, the third the cumulative offset. -/
def deleteLoop (startIndex : Int) : List Inline → Int → Int → List Inline
  | [], _, _ => []
  | r :: rest, length, cum =>
    if length > 0 ∧ startIndex ≥ cum ∧ startIndex < cum + inlineLen r then
      if r.isEmbed then
        deleteLoop startIndex rest (length - 1) (cum + inlineLen r)
      else
        let deleteIndex := startIndex - cum
        let textlength : Int := (r.text.length : Int) - deleteIndex
        let deletelength := if textlength - length ≥ 0 then length else textlength
        let text := jsSlice r.text 0 deleteIndex ++ jsSliceFrom r.text (deleteIndex + deletelength)
        (if 0 < text.length then [{ r with text := text }] else [])
          ++ deleteLoop startIndex rest (length - deletelength) (cum + inlineLen r)
    else
      r :: deleteLoop startIndex rest length (cum + inlineLen r)

/-- deleteInlineContents (utils/block.ts): removes characters starting at
index; the length argument defaults to 1 in the source and is passed
explicitly here.  If the resulting sequence would be empty a single
placeholder text run is substituted. -/
def deleteInlineContents (contents : List Inline) (index length : Int) : List Inline :=
  let destContents := deleteLoop index contents length 0
  if destContents.length < 1 then [createInline "TEXT".data] else destContents

/-- The loop of splitInlineContents (utils/block.ts, lines 164-201),
returning the pair (firstContents, lastContents) contributed by the
remaining runs.  Arguments as in deleteLoop. -/
def splitLoop (startIndex : Int) : List Inline → Int → Int → List Inline × List Inline
  | [], _, _ => ([], [])
  | r :: rest, length, cum =>
    if startIndex ≥ cum ∧ startIndex < cum + inlineLen r then
      if r.isEmbed then
        let p := splitLoop startIndex rest (length - 1) (cum + inlineLen r)
        (p.1, r :: p.2)
      else
        let deleteIndex := startIndex - cum
        let textlength : Int := (r.text.length : Int) - deleteIndex
        let deletelength := if textlength - length ≥ 0 then length else textlength
        let firstText := jsSlice r.text 0 deleteIndex
        let lastText := jsSliceFrom r.text (deleteIndex + deletelength)
        let p := splitLoop startIndex rest (length - deletelength) (cum + inlineLen r)
        ((if 0 < firstText.length then [{ r with text := firstText }] else []) ++ p.1,
         (if 0 < lastText.length then [{ r with text := lastText }] else []) ++ p.2)
    else
      let p := splitLoop startIndex rest length (cum + inlineLen r)
      if length > 0 then (r :: p.1, p.2) else (p.1, r :: p.2)

/-- splitInlineContents (utils/block.ts): partitions contents at index,
additionally discarding length characters from the split point; the length
argument defaults to 0 in the source and is passed explicitly here. -/
def splitInlineContents (contents : List Inline) (index length : Int) : List Inline × List Inline :=
  splitLoop index contents length 0

/-- The linear units of a content sequence: an embed run contributes one
abstract unit (none), a text run one unit (some ch) per character.  Used to
state content preservation independently of run boundaries. -/
def flatUnits (c : List Inline) : List (Option Char) :=
  (c.map (fun r => if r.isEmbed then [none] else r.text.map some)).flatten

/-- A rendered child element of a block element, as the DOM-reading
functions of utils/block.ts observe it: the data-format attribute, the
data-inline-id attribute, the visible text, and whether the element has a
first child node.  The DOM node returned by getNativeIndexFromBlockIndex is
represented by the position of the child element it belongs to. -/
structure ChildElement where
  format : Option JStr
  inlineId : Option JStr
  innerText : JStr
  hasChild : Bool
deriving DecidableEq

/-- Removal of a leading "inline/" tag, modelling the replace of the
regular expression matching that prefix at the start of the string. -/
def dropInlineTag (s : JStr) : JStr :=
  if s.take 7 = "inline/".data then s.drop 7 else s

/-- The format normalisation dataset.format?.replace(...).toUpperCase()
performed by every DOM walk of utils/block.ts. -/
def normFormat (f : Option JStr) : Option JStr :=
  f.map (fun s => (dropInlineTag s).map Char.toUpper)

/-- isEmbed applied to a possibly undefined format string, as in
isEmbed(format as InlineType): undefined is not an embed kind. -/
def isEmbedOpt (t : Option JStr) : Bool :=
  match t with
  | some f => isEmbed f
  | none => false

/-- JavaScript truthiness filter for an optional string: undefined and the
empty string are falsy; a truthy string is returned unchanged. -/
def truthyStr (s : Option JStr) : Option JStr :=
  match s with
  | some t => if t = [] then none else some t
  | none => none

/-- The normalised format of a child element when it is truthy, i.e. the
format bound in walks guarded by if (format). -/
def truthyFormat (c : ChildElement) : Option JStr := truthyStr (normFormat c.format)

/-- getBlockLength (utils/block.ts, lines 31-42) restricted to a found
element: sums 1 per embed-formatted child and the U+FEFF-stripped visible
text length per other child.  The element lookup (returning null for an
unknown block id) is outside this model. -/
def getBlockLength (children : List ChildElement) : Int :=
  (children.map (fun c =>
    if isEmbedOpt (normFormat c.format) then 1
    else ((stripFeff c.innerText).length : Int))).sum

/-- The inline length used by the walks that guard on a truthy format:
1 for an embed format, the raw visible text length otherwise. -/
def fmtLen (c : ChildElement) (fmt : JStr) : Int :=
  if isEmbed fmt then 1 else (c.innerText.length : Int)

/-- Linear length contributed by a child element in the format-guarded
walks: 0 when the format is falsy (the child is skipped entirely). -/
def childLen (c : ChildElement) : Int :=
  match truthyFormat c with
  | some fmt => fmtLen c fmt
  | none => 0

/-- Total linear length of a rendered block in the format-guarded walks. -/
def totalChildLen (children : List ChildElement) : Int :=
  (children.map childLen).sum

/-- Linear length of the first i children of a rendered block. -/
def prefChildLen (children : List ChildElement) (i : Nat) : Int :=
  totalChildLen (children.take i)

/-- The loop of getNativeIndexFromBlockIndex (utils/block.ts, lines 86-106):
the Nat argument is the position of the next child, the Int argument the
cumulative length.  A child whose format is falsy is skipped without
accumulating; a matching child without a first child node is skipped but
still accumulates. -/
def nativeLoop (index : Int) : List ChildElement → Nat → Int → Option (Nat × Int)
  | [], _, _ => none
  | c :: rest, i, cum =>
    match truthyFormat c with
    | some fmt =>
      if index ≤ cum + fmtLen c fmt ∧ c.hasChild then some (i, index - cum)
      else nativeLoop index rest (i + 1) (cum + fmtLen c fmt)
    | none => nativeLoop index rest (i + 1) cum

/-- getNativeIndexFromBlockIndex restricted to a found element; the result
node is represented by the position of the child element it belongs to. -/
def getNativeIndexFromBlockIndex (children : List ChildElement) (index : Int) : Option (Nat × Int) :=
  nativeLoop index children 0 0

/-- Whether a string starts with the U+FEFF sentinel. -/
def startsWithFeff (s : JStr) : Bool :=
  match s with
  | ch :: _ => ch == feff
  | [] => false

/-- Whether a string ends with the U+FEFF sentinel. -/
def endsWithFeff (s : JStr) : Bool := startsWithFeff s.reverse

/-- The per-run conversion of getInlineContents for a child at position
currentIndex whose truthy format and truthy inline id are fmt and id: the
text is U+FEFF-stripped, and an empty text at position 0 becomes the
sentinel. -/
def convertInline (currentIndex : Nat) (c : ChildElement) (fmt id : JStr) : Inline :=
  { id := id, attributes := [],
    text := if currentIndex = 0 ∧ (stripFeff c.innerText).length < 1
            then [feff] else stripFeff c.innerText,
    type := fmt, isEmbed := isEmbed fmt }

/-- The reduce of getInlineContents (utils/block.ts, lines 44-83): walks the
children carrying the affected flag and affectedLength, skipping any child
whose format or inline id is falsy. -/
def getInlineContentsLoop : Nat → List ChildElement → Bool → Int → List Inline × Bool × Int
  | _, [], affected, affectedLength => ([], affected, affectedLength)
  | i, c :: rest, affected, affectedLength =>
    match truthyFormat c, truthyStr c.inlineId with
    | some fmt, some id =>
      let affected1 := if endsWithFeff c.innerText then true else affected
      let affected2 := if startsWithFeff c.innerText then true else affected1
      let affectedLength2 := if startsWithFeff c.innerText then (-1 : Int) else affectedLength
      let p := getInlineContentsLoop (i + 1) rest affected2 affectedLength2
      (convertInline i c fmt id :: p.1, p.2)
    | _, _ => getInlineContentsLoop (i + 1) rest affected affectedLength

/-- getInlineContents restricted to a found element, returning the triple
(contents, affected, affectedLength). -/
def getInlineContents (children : List ChildElement) : List Inline × Bool × Int :=
  getInlineContentsLoop 0 children false 0

/-- Conversion of one indexed child entry, as an optional result: none
exactly when the format or inline id of the child is falsy. -/
def convertEntry (p : Nat × ChildElement) : Option Inline :=
  match truthyFormat p.2, truthyStr p.2.inlineId with
  | some fmt, some id => some (convertInline p.1 p.2 fmt id)
  | _, _ => none

/-- The origin tag of a mutation (types/editor.ts). -/
inductive Source where
  | user
  | silent
  | collaborator
deriving DecidableEq

/-- Modelled from the spec: a history frame (spec section 3) — the history
module itself is not under src/, only its interface and configuration.
Inverse operations are modelled as plain strings. -/
structure HistoryFrame where
  inverseOperations : List JStr
  source : Source
  timestamp : Int
deriving DecidableEq

/-- Modelled from the spec: the recording-relevant state of the history
module — the bounded undo stack and the time of the last recorded
mutation. -/
structure HistoryState where
  stack : List HistoryFrame
  lastRecorded : Option Int
deriving DecidableEq

/-- Modelled from the spec: the history module options (maxStack and delay,
as configured under modules.history). -/
structure HistoryOptions where
  maxStack : Nat
  delay : Int
deriving DecidableEq

/-- Modelled from the spec: the recording step of the history module (spec
section 4.4, not under src/).  Only user-sourced mutations are recorded;
within the coalescing delay the operation merges into the open frame,
otherwise a new frame is appended and, past the configured maximum, the
oldest frame is evicted. -/
def recordHistory (opts : HistoryOptions) (st : HistoryState) (src : Source) (op : JStr) (now : Int) : HistoryState :=
  if src = Source.user then
    let coalescing : Bool := match st.lastRecorded with
      | some t => decide (now - t < opts.delay)
      | none => false
    match (if coalescing then st.stack.getLast? else none) with
    | some f =>
      { stack := st.stack.dropLast ++
          [{ inverseOperations := f.inverseOperations ++ [op],
             source := Source.user, timestamp := now }],
        lastRecorded := some now }
    | none =>
      let pushed := st.stack ++
        [{ inverseOperations := [op], source := Source.user, timestamp := now }]
      { stack := if opts.maxStack < pushed.length then pushed.drop 1 else pushed,
        lastRecorded := some now }
  else st

/-- A sequence of mutations (source, operation, arrival time) applied to the
history module in order. -/
def applyMutations (opts : HistoryOptions) (st : HistoryState) (ms : List (Source × JStr × Int)) : HistoryState :=
  ms.foldl (fun s m => recordHistory opts s m.1 m.2.1 m.2.2) st

/-- Agreement of two runs on every field except the text. -/
def sameButText (r r2 : Inline) : Prop :=
  r.id = r2.id ∧ r.type = r2.type ∧ r.isEmbed = r2.isEmbed ∧ r.attributes = r2.attributes

/-- A run is accounted for by an input sequence when it is an input run, an
input run with only its text replaced, or the freshly created placeholder. -/
def preservedFrom (c : List Inline) (r : Inline) : Prop :=
  r ∈ c ∨ (∃ r2, r2 ∈ c ∧ sameButText r r2) ∨ r = createInline "TEXT".data

/-- A plain text run with the given id and text. -/
def tRun (i t : JStr) : Inline :=
  { id := i, attributes := [], text := t, type := "TEXT".data, isEmbed := false }

/-- An embed (image) run with the given id. -/
def eRun (i : JStr) : Inline :=
  { id := i, attributes := [], text := [], type := "IMAGE".data, isEmbed := true }

/-- Two-run example content: the texts ab and cd. -/
def exRuns : List Inline := [tRun "1".data "ab".data, tRun "2".data "cd".data]

/-- Example content ending in an embed: the text a followed by an image. -/
def exEmbedRuns : List Inline := [tRun "1".data "a".data, eRun "2".data]

/-- A rendered text child element with visible text ab. -/
def exChildText : ChildElement :=
  { format := some "inline/text".data, inlineId := some "i1".data,
    innerText := "ab".data, hasChild := true }

/-- A rendered placeholder child element carrying only the sentinel. -/
def exChildSentinel : ChildElement :=
  { format := some "inline/text".data, inlineId := some "i1".data,
    innerText := [feff], hasChild := true }

/-- A malformed child element lacking the data-format attribute. -/
def exChildBad : ChildElement :=
  { format := none, inlineId := some "i2".data, innerText := "xx".data,
    hasChild := true }

/-- A rendered image child element. -/
def exChildImage : ChildElement :=
  { format := some "inline/image".data, inlineId := some "i3".data,
    innerText := [], hasChild := true }

theorem inlineLen_nonneg (r : Inline) : 0 ≤ inlineLen r := by
  unfold inlineLen; split <;> omega

theorem contentsLength_nonneg (c : List Inline) : 0 ≤ contentsLength c := by
  refine List.sum_nonneg ?_
  intro x hx
  obtain ⟨r, _, rfl⟩ := List.mem_map.mp hx
  exact inlineLen_nonneg r

theorem contentsLength_cons (r : Inline) (c : List Inline) :
    contentsLength (r :: c) = inlineLen r + contentsLength c := by
  simp [contentsLength]

/-- Once the cumulative offset has passed the original index, deleteLoop
copies the remaining runs unchanged. -/
theorem deleteLoop_past (s : Int) (rest : List Inline) : ∀ (l cum : Int), s < cum →
    deleteLoop s rest l cum = rest := by
  induction rest with
  | nil => intro l cum _; rfl
  | cons r rest ih =>
    intro l cum h
    have hlen := inlineLen_nonneg r
    have hcond : ¬(l > 0 ∧ s ≥ cum ∧ s < cum + inlineLen r) := by omega
    simp only [deleteLoop, if_neg hcond]
    rw [ih l (cum + inlineLen r) (by omega)]

/-- When the original index is at or past the end of the remaining runs,
deleteLoop copies them unchanged. -/
theorem deleteLoop_unchanged_of_ge (s : Int) (rest : List Inline) : ∀ (l cum : Int),
    cum + contentsLength rest ≤ s → deleteLoop s rest l cum = rest := by
  induction rest with
  | nil => intro l cum _; rfl
  | cons r rest ih =>
    intro l cum h
    have hlen := inlineLen_nonneg r
    have hrest := contentsLength_nonneg rest
    rw [contentsLength_cons] at h
    have hcond : ¬(l > 0 ∧ s ≥ cum ∧ s < cum + inlineLen r) := by omega
    simp only [deleteLoop, if_neg hcond]
    rw [ih l (cum + inlineLen r) (by omega)]

/-- Two length budgets that both cover the whole remaining content give the
same deleteLoop result. -/
theorem deleteLoop_clamp (s : Int) (rest : List Inline) : ∀ (l1 l2 cum : Int),
    contentsLength rest + cum - s ≤ l1 → contentsLength rest + cum - s ≤ l2 →
    deleteLoop s rest l1 cum = deleteLoop s rest l2 cum := by
  induction rest with
  | nil => intro l1 l2 cum _ _; rfl
  | cons r rest ih =>
    intro l1 l2 cum h1 h2
    have hlen := inlineLen_nonneg r
    have hrest := contentsLength_nonneg rest
    rw [contentsLength_cons] at h1 h2
    by_cases hp : s ≥ cum ∧ s < cum + inlineLen r
    · have hc1 : l1 > 0 ∧ s ≥ cum ∧ s < cum + inlineLen r := ⟨by omega, hp.1, hp.2⟩
      have hc2 : l2 > 0 ∧ s ≥ cum ∧ s < cum + inlineLen r := ⟨by omega, hp.1, hp.2⟩
      simp only [deleteLoop, if_pos hc1, if_pos hc2]
      cases hE : r.isEmbed with
      | true =>
        simp only [hE, if_true]
        rw [deleteLoop_past s rest (l1 - 1) (cum + inlineLen r) (by omega),
            deleteLoop_past s rest (l2 - 1) (cum + inlineLen r) (by omega)]
      | false =>
        have htl : inlineLen r = (r.text.length : Int) := by simp [inlineLen, hE]
        have hd1 : (if (r.text.length : Int) - (s - cum) - l1 ≥ 0 then l1
                    else (r.text.length : Int) - (s - cum)) = (r.text.length : Int) - (s - cum) := by
          split <;> omega
        have hd2 : (if (r.text.length : Int) - (s - cum) - l2 ≥ 0 then l2
                    else (r.text.length : Int) - (s - cum)) = (r.text.length : Int) - (s - cum) := by
          split <;> omega
        simp only [hE, if_false, Bool.false_eq_true, hd1, hd2]
        rw [deleteLoop_past s rest _ (cum + inlineLen r) (by omega),
            deleteLoop_past s rest _ (cum + inlineLen r) (by omega)]
    · have hc1 : ¬(l1 > 0 ∧ s ≥ cum ∧ s < cum + inlineLen r) := by tauto
      have hc2 : ¬(l2 > 0 ∧ s ≥ cum ∧ s < cum + inlineLen r) := by tauto
      simp only [deleteLoop, if_neg hc1, if_neg hc2]
      rw [ih l1 l2 (cum + inlineLen r) (by omega) (by omega)]

/-- With an exhausted discard budget and an index at or past the end of the
remaining runs, splitLoop sends every remaining run to the trailing side. -/
theorem splitLoop_unchanged_of_ge (s : Int) (rest : List Inline) : ∀ (l cum : Int),
    l ≤ 0 → cum + contentsLength rest ≤ s → splitLoop s rest l cum = ([], rest) := by
  induction rest with
  | nil => intro l cum _ _; rfl
  | cons r rest ih =>
    intro l cum hl h
    have hlen := inlineLen_nonneg r
    have hrest := contentsLength_nonneg rest
    rw [contentsLength_cons] at h
    have hcond : ¬(s ≥ cum ∧ s < cum + inlineLen r) := by omega
    have hlne : ¬(l > 0) := by omega
    simp only [splitLoop, if_neg hcond, if_neg hlne]
    rw [ih l (cum + inlineLen r) hl (by omega)]

/-- Claim C6: deleteInlineContents and splitInlineContents are total over
all integer arguments and clamp out-of-range arguments to content
boundaries: a deletion whose index is at or past the total content length
leaves every run unchanged, an over-long length behaves exactly like the
length clamped to the end of the content, and a split at or past the end
keeps all content (on the trailing side). -/
theorem mutation_clamping (c : List Inline) (i l : Int) :
    (contentsLength c ≤ i → c ≠ [] → deleteInlineContents c i l = c)
    ∧ (contentsLength c - i ≤ l →
        deleteInlineContents c i l = deleteInlineContents c i (contentsLength c - i))
    ∧ (contentsLength c ≤ i → splitInlineContents c i 0 = ([], c)) := by
  refine ⟨?_, ?_, ?_⟩
  · intro h hne
    unfold deleteInlineContents
    rw [deleteLoop_unchanged_of_ge i c l 0 (by omega)]
    have : ¬(c.length < 1) := by
      have := List.length_pos.mpr hne
      omega
    rw [if_neg this]
  · intro h
    unfold deleteInlineContents
    rw [deleteLoop_clamp i c l (contentsLength c - i) 0 (by omega) (by omega)]
  · intro h
    unfold splitInlineContents
    exact splitLoop_unchanged_of_ge i c 0 0 (by omega) (by omega)

/-- Witness for mutation_clamping at the concrete content [ab, cd] with
index 5 and length 7, both out of range. -/
theorem mutation_clamping_witness :
    deleteInlineContents exRuns 5 7 = exRuns
    ∧ deleteInlineContents exRuns 5 7 = deleteInlineContents exRuns 5 (contentsLength exRuns - 5)
    ∧ splitInlineContents exRuns 5 0 = ([], exRuns) :=
  ⟨(mutation_clamping exRuns 5 7).1 (by decide) (by decide),
   (mutation_clamping exRuns 5 7).2.1 (by decide),
   (mutation_clamping exRuns 5 7).2.2 (by decide)⟩

/-- Claim C3: deleteInlineContents never returns an empty sequence — the
result has at least one run, and when the walk would produce an empty
sequence the result is exactly one freshly created placeholder text run. -/
theorem delete_never_empty (c : List Inline) (i l : Int) :
    1 ≤ (deleteInlineContents c i l).length
    ∧ (deleteLoop i c l 0 = [] → deleteInlineContents c i l = [createInline "TEXT".data]) := by
  unfold deleteInlineContents
  by_cases h : (deleteLoop i c l 0).length < 1
  · rw [if_pos h]
    exact ⟨by simp, fun _ => rfl⟩
  · rw [if_neg h]
    refine ⟨by omega, fun he => absurd ?_ h⟩
    simp [he]

/-- Witness for delete_never_empty: deleting both characters of a single
text run yields exactly the placeholder. -/
theorem delete_never_empty_witness :
    1 ≤ (deleteInlineContents [tRun "9".data "ab".data] 0 2).length
    ∧ deleteInlineContents [tRun "9".data "ab".data] 0 2 = [createInline "TEXT".data] :=
  ⟨(delete_never_empty [tRun "9".data "ab".data] 0 2).1,
   (delete_never_empty [tRun "9".data "ab".data] 0 2).2 (by decide)⟩

/-- Claim C1 (refuted): splitting [ab, cd] at the valid index 3 with length
0 yields before = [c] and after = [ab, d]; the concatenation of before and
after fails to reconstruct the content run for run, and even its linear
character content is out of order, because runs that lie entirely before
the split point are routed to the trailing side whenever the discard budget
is zero. -/
theorem split_concat_counterexample :
    splitInlineContents exRuns 3 0 =
      ([tRun "2".data "c".data], [tRun "1".data "ab".data, tRun "2".data "d".data])
    ∧ (splitInlineContents exRuns 3 0).1 ++ (splitInlineContents exRuns 3 0).2 ≠ exRuns
    ∧ flatUnits ((splitInlineContents exRuns 3 0).1 ++ (splitInlineContents exRuns 3 0).2)
        ≠ flatUnits exRuns
    ∧ (3 : Int) ≤ contentsLength exRuns := by decide

/-- Claim C2 (refuted): deleting 2 characters of [ab, cd] starting at index
1 touches only the run containing the start index: the second run overlaps
the range [1, 3) but survives unchanged, and only one character is removed
(total length 4 becomes 3, not 2). -/
theorem delete_overlap_counterexample :
    deleteInlineContents exRuns 1 2 = [tRun "1".data "a".data, tRun "2".data "cd".data]
    ∧ tRun "2".data "cd".data ∈ deleteInlineContents exRuns 1 2
    ∧ contentsLength (deleteInlineContents exRuns 1 2) = 3 := by decide

/-- Claim C4 (refuted): deleting the range [0, 2) of [a, embed] overlaps the
embed run at position 1, yet the embed run survives: only the text run
containing the start index is consumed. -/
theorem delete_embed_counterexample :
    deleteInlineContents exEmbedRuns 0 2 = [eRun "2".data]
    ∧ eRun "2".data ∈ deleteInlineContents exEmbedRuns 0 2 := by decide

/-- Membership in a conditionally pushed singleton forces equality with the
pushed element. -/
theorem mem_ite_singleton {α : Type} {p : Prop} [Decidable p] {x r : α}
    (h : r ∈ (if p then [x] else [])) : r = x := by
  split at h
  · exact List.mem_singleton.mp h
  · simp at h

/-- Every run produced by deleteLoop is an input run or an input run with
only its text replaced. -/
theorem deleteLoop_mem (s : Int) (rest : List Inline) : ∀ (l cum : Int) (r : Inline),
    r ∈ deleteLoop s rest l cum → r ∈ rest ∨ ∃ r2, r2 ∈ rest ∧ sameButText r r2 := by
  induction rest with
  | nil =>
    intro l cum r h
    simp [deleteLoop] at h
  | cons r0 rest ih =>
    intro l cum r h
    have weaken : r ∈ rest ∨ (∃ r2, r2 ∈ rest ∧ sameButText r r2) →
        r ∈ r0 :: rest ∨ ∃ r2, r2 ∈ r0 :: rest ∧ sameButText r r2 := by
      rintro (h1 | ⟨r2, h2, h3⟩)
      · exact Or.inl (List.mem_cons_of_mem r0 h1)
      · exact Or.inr ⟨r2, List.mem_cons_of_mem r0 h2, h3⟩
    simp only [deleteLoop] at h
    by_cases hc : l > 0 ∧ s ≥ cum ∧ s < cum + inlineLen r0
    · rw [if_pos hc] at h
      cases hE : r0.isEmbed with
      | true =>
        simp only [hE, if_true] at h
        exact weaken (ih (l - 1) (cum + inlineLen r0) r h)
      | false =>
        simp only [hE, Bool.false_eq_true, if_false, List.mem_append] at h
        rcases h with h | h
        · rcases mem_ite_singleton h with rfl
          exact Or.inr ⟨r0, List.mem_cons_self r0 rest, rfl, rfl, hE.symm, rfl⟩
        · exact weaken (ih _ (cum + inlineLen r0) r h)
    · rw [if_neg hc] at h
      rcases List.mem_cons.mp h with rfl | h
      · exact Or.inl (List.mem_cons_self r rest)
      · exact weaken (ih l (cum + inlineLen r0) r h)

/-- Every run produced on either side of splitLoop is an input run or an
input run with only its text replaced. -/
theorem splitLoop_mem (s : Int) (rest : List Inline) : ∀ (l cum : Int) (r : Inline),
    (r ∈ (splitLoop s rest l cum).1 ∨ r ∈ (splitLoop s rest l cum).2) →
    r ∈ rest ∨ ∃ r2, r2 ∈ rest ∧ sameButText r r2 := by
  induction rest with
  | nil =>
    intro l cum r h
    simp [splitLoop] at h
  | cons r0 rest ih =>
    intro l cum r h
    have weaken : r ∈ rest ∨ (∃ r2, r2 ∈ rest ∧ sameButText r r2) →
        r ∈ r0 :: rest ∨ ∃ r2, r2 ∈ r0 :: rest ∧ sameButText r r2 := by
      rintro (h1 | ⟨r2, h2, h3⟩)
      · exact Or.inl (List.mem_cons_of_mem r0 h1)
      · exact Or.inr ⟨r2, List.mem_cons_of_mem r0 h2, h3⟩
    simp only [splitLoop] at h
    by_cases hc : s ≥ cum ∧ s < cum + inlineLen r0
    · rw [if_pos hc] at h
      cases hE : r0.isEmbed with
      | true =>
        simp only [hE, if_true] at h
        rcases h with h | h
        · exact weaken (ih (l - 1) (cum + inlineLen r0) r (Or.inl h))
        · rcases List.mem_cons.mp h with rfl | h
          · exact Or.inl (List.mem_cons_self r rest)
          · exact weaken (ih (l - 1) (cum + inlineLen r0) r (Or.inr h))
      | false =>
        simp only [hE, Bool.false_eq_true, if_false, List.mem_append] at h
        rcases h with (h | h) | (h | h)
        · rcases mem_ite_singleton h with rfl
          exact Or.inr ⟨r0, List.mem_cons_self r0 rest, rfl, rfl, hE.symm, rfl⟩
        · exact weaken (ih _ (cum + inlineLen r0) r (Or.inl h))
        · rcases mem_ite_singleton h with rfl
          exact Or.inr ⟨r0, List.mem_cons_self r0 rest, rfl, rfl, hE.symm, rfl⟩
        · exact weaken (ih _ (cum + inlineLen r0) r (Or.inr h))
    · rw [if_neg hc] at h
      by_cases hl : l > 0
      · rw [if_pos hl] at h
        rcases h with h | h
        · rcases List.mem_cons.mp h with rfl | h
          · exact Or.inl (List.mem_cons_self r rest)
          · exact weaken (ih l (cum + inlineLen r0) r (Or.inl h))
        · exact weaken (ih l (cum + inlineLen r0) r (Or.inr h))
      · rw [if_neg hl] at h
        rcases h with h | h
        · exact weaken (ih l (cum + inlineLen r0) r (Or.inl h))
        · rcases List.mem_cons.mp h with rfl | h
          · exact Or.inl (List.mem_cons_self r rest)
          · exact weaken (ih l (cum + inlineLen r0) r (Or.inr h))

/-- Claim C10: every run in the output of deleteInlineContents or
splitInlineContents is an input run passed through unchanged, an input run
with only its text replaced (id, type, embed flag and attributes
preserved), or the single freshly created placeholder run. -/
theorem mutation_frame_effect (c : List Inline) (i l : Int) (r : Inline) :
    (r ∈ deleteInlineContents c i l → preservedFrom c r)
    ∧ (r ∈ (splitInlineContents c i l).1 → preservedFrom c r)
    ∧ (r ∈ (splitInlineContents c i l).2 → preservedFrom c r) := by
  refine ⟨?_, ?_, ?_⟩
  · intro h
    unfold deleteInlineContents at h
    by_cases he : (deleteLoop i c l 0).length < 1
    · rw [if_pos he] at h
      exact Or.inr (Or.inr (List.mem_singleton.mp h))
    · rw [if_neg he] at h
      rcases deleteLoop_mem i c l 0 r h with h1 | h2
      · exact Or.inl h1
      · exact Or.inr (Or.inl h2)
  · intro h
    rcases splitLoop_mem i c l 0 r (Or.inl h) with h1 | h2
    · exact Or.inl h1
    · exact Or.inr (Or.inl h2)
  · intro h
    rcases splitLoop_mem i c l 0 r (Or.inr h) with h1 | h2
    · exact Or.inl h1
    · exact Or.inr (Or.inl h2)

/-- Witness for mutation_frame_effect: the run left by deleting the b of ab
is accounted for by the input. -/
theorem mutation_frame_effect_witness :
    preservedFrom [tRun "9".data "ab".data] (tRun "9".data "a".data) :=
  (mutation_frame_effect [tRun "9".data "ab".data] 1 1 (tRun "9".data "a".data)).1 (by decide)

/-- Stripping the sentinel from a string that does not contain it is the
identity. -/
theorem stripFeff_of_not_mem {s : JStr} (h : feff ∉ s) : stripFeff s = s := by
  unfold stripFeff
  refine List.filter_eq_self.mpr ?_
  intro a ha
  exact bne_iff_ne.mpr (fun heq => h (heq ▸ ha))

/-- Claim C5: getBlockLength sums 1 per embed run and the character count
per text run over the rendered runs of the block; a sole placeholder run, which
carries the zero-width sentinel as its text, contributes 0 to the observed
length. -/
theorem block_length_matches_runs (children : List ChildElement) (child : ChildElement)
    (h1 : ∀ c ∈ children, feff ∉ c.innerText)
    (h2 : child.innerText = [feff])
    (h3 : isEmbedOpt (normFormat child.format) = false) :
    getBlockLength children =
      (children.map (fun c => if isEmbedOpt (normFormat c.format) then 1
        else (c.innerText.length : Int))).sum
    ∧ getBlockLength [child] = 0 := by
  constructor
  · unfold getBlockLength
    congr 1
    refine List.map_congr_left ?_
    intro c hc
    rw [stripFeff_of_not_mem (h1 c hc)]
  · simp [getBlockLength, h2, h3, stripFeff]

/-- Witness for block_length_matches_runs at a one-run text block and a
placeholder-only block. -/
theorem block_length_matches_runs_witness :
    getBlockLength [exChildText] =
      ([exChildText].map (fun c => if isEmbedOpt (normFormat c.format) then 1
        else (c.innerText.length : Int))).sum
    ∧ getBlockLength [exChildSentinel] = 0 :=
  block_length_matches_runs [exChildText] exChildSentinel (by decide) (by decide) (by decide)

/-- The contents built by the reduce of getInlineContents are the
index-aware conversions of exactly the well-formed children, whatever the
incoming flag state is. -/
theorem getInlineContentsLoop_fst (rest : List ChildElement) : ∀ (i : Nat) (a : Bool) (al : Int),
    (getInlineContentsLoop i rest a al).1 = List.filterMap convertEntry (List.enumFrom i rest) := by
  induction rest with
  | nil => intro i a al; rfl
  | cons c rest ih =>
    intro i a al
    rcases hf : truthyFormat c with _ | fmt <;> rcases hi : truthyStr c.inlineId with _ | id <;>
      simp [getInlineContentsLoop, List.enumFrom_cons, List.filterMap_cons, convertEntry, hf, hi, ih]

/-- Claim C8: during reconciliation, a per-run entry lacking a truthy type
tag or run id is skipped and contributes nothing, while every remaining
well-formed run is still converted at its original child position — the
result is exactly the per-child conversion of the well-formed entries. -/
theorem reconciliation_skips_malformed (children : List ChildElement) :
    (getInlineContents children).1 = List.filterMap convertEntry children.enum := by
  unfold getInlineContents List.enum
  exact getInlineContentsLoop_fst children 0 false 0

theorem fmtLen_nonneg (c : ChildElement) (fmt : JStr) : 0 ≤ fmtLen c fmt := by
  unfold fmtLen; split <;> omega

theorem childLen_nonneg (c : ChildElement) : 0 ≤ childLen c := by
  unfold childLen
  rcases truthyFormat c with _ | fmt
  · simp
  · simpa using fmtLen_nonneg c fmt

theorem childLen_of_truthy {c : ChildElement} {fmt : JStr}
    (h : truthyFormat c = some fmt) : childLen c = fmtLen c fmt := by
  simp [childLen, h]

theorem totalChildLen_nonneg (children : List ChildElement) : 0 ≤ totalChildLen children := by
  refine List.sum_nonneg ?_
  intro x hx
  obtain ⟨cc, _, rfl⟩ := List.mem_map.mp hx
  exact childLen_nonneg cc

theorem totalChildLen_cons (c : ChildElement) (rest : List ChildElement) :
    totalChildLen (c :: rest) = childLen c + totalChildLen rest := by
  simp [totalChildLen]

theorem prefChildLen_zero (children : List ChildElement) : prefChildLen children 0 = 0 := rfl

theorem prefChildLen_succ_cons (c : ChildElement) (rest : List ChildElement) (k : Nat) :
    prefChildLen (c :: rest) (k + 1) = childLen c + prefChildLen rest k := by
  simp [prefChildLen, List.take_succ_cons, totalChildLen]

/-- When the index lies beyond the remaining content, the walk of
getNativeIndexFromBlockIndex finds nothing. -/
theorem nativeLoop_none_of_lt (index : Int) (rest : List ChildElement) : ∀ (i : Nat) (cum : Int),
    cum + totalChildLen rest < index → nativeLoop index rest i cum = none := by
  induction rest with
  | nil => intro i cum _; rfl
  | cons c rest ih =>
    intro i cum h
    have h1 := totalChildLen_nonneg rest
    rw [totalChildLen_cons] at h
    rcases hf : truthyFormat c with _ | fmt
    · have hc0 : childLen c = 0 := by simp [childLen, hf]
      simp only [nativeLoop, hf]
      exact ih (i + 1) cum (by omega)
    · have hcl := childLen_of_truthy hf
      have hcond : ¬(index ≤ cum + fmtLen c fmt ∧ c.hasChild = true) := by
        rintro ⟨ha, -⟩; omega
      simp only [nativeLoop, hf, if_neg hcond]
      exact ih (i + 1) (cum + fmtLen c fmt) (by omega)

/-- When the index lies within the remaining non-empty content and every
remaining child is well rendered, the walk finds a position. -/
theorem nativeLoop_isSome_of_le (index : Int) (rest : List ChildElement) : ∀ (i : Nat) (cum : Int),
    (∀ c ∈ rest, (truthyFormat c).isSome ∧ c.hasChild = true) →
    rest ≠ [] → index ≤ cum + totalChildLen rest →
    (nativeLoop index rest i cum).isSome = true := by
  induction rest with
  | nil => intro i cum _ hne _; exact absurd rfl hne
  | cons c rest ih =>
    intro i cum hwf hne h
    obtain ⟨hfs, hhc⟩ := hwf c (List.mem_cons_self c rest)
    obtain ⟨fmt, hf⟩ := Option.isSome_iff_exists.mp hfs
    have hcl := childLen_of_truthy hf
    rw [totalChildLen_cons] at h
    by_cases hle : index ≤ cum + fmtLen c fmt
    · have hcond : index ≤ cum + fmtLen c fmt ∧ c.hasChild = true := ⟨hle, hhc⟩
      simp [nativeLoop, hf, if_pos hcond]
    · have hcond : ¬(index ≤ cum + fmtLen c fmt ∧ c.hasChild = true) := by
        rintro ⟨ha, -⟩; omega
      simp only [nativeLoop, hf, if_neg hcond]
      rcases rest with _ | ⟨c2, rest2⟩
      · have h0 : totalChildLen ([] : List ChildElement) = 0 := rfl
        omega
      · exact ih (i + 1) (cum + fmtLen c fmt)
          (fun c2 hc2 => hwf c2 (List.mem_cons_of_mem c hc2)) (by simp) (by omega)

/-- A found position of the walk of getNativeIndexFromBlockIndex is the
first well-rendered child whose cumulative end reaches the index, together
with the intra-child offset. -/
theorem nativeLoop_some_spec (index : Int) (rest : List ChildElement) : ∀ (i0 : Nat) (cum : Int),
    (∀ c ∈ rest, (truthyFormat c).isSome ∧ c.hasChild = true) →
    ∀ j o, nativeLoop index rest i0 cum = some (j, o) →
    ∃ k, ∃ hk : k < rest.length,
      j = i0 + k
      ∧ o = index - (cum + prefChildLen rest k)
      ∧ index ≤ cum + prefChildLen rest k + childLen (rest.get ⟨k, hk⟩)
      ∧ ∀ m, (hm : m < k) →
          cum + prefChildLen rest m + childLen (rest.get ⟨m, Nat.lt_trans hm hk⟩) < index := by
  induction rest with
  | nil => intro i0 cum _ j o h; exact absurd h (by simp [nativeLoop])
  | cons c rest ih =>
    intro i0 cum hwf j o hsome
    obtain ⟨hfs, hhc⟩ := hwf c (List.mem_cons_self c rest)
    obtain ⟨fmt, hf⟩ := Option.isSome_iff_exists.mp hfs
    have hcl := childLen_of_truthy hf
    by_cases hle : index ≤ cum + fmtLen c fmt
    · simp only [nativeLoop, hf, if_pos (And.intro hle hhc), Option.some.injEq, Prod.mk.injEq] at hsome
      obtain ⟨rfl, rfl⟩ := hsome
      refine ⟨0, by simp, by omega, ?_, ?_, ?_⟩
      · rw [prefChildLen_zero]; omega
      · rw [prefChildLen_zero]
        have : (c :: rest).get ⟨0, by simp⟩ = c := rfl
        rw [this]
        omega
      · intro m hm; omega
    · have hcond : ¬(index ≤ cum + fmtLen c fmt ∧ c.hasChild = true) := by
        rintro ⟨ha, -⟩; omega
      simp only [nativeLoop, hf, if_neg hcond] at hsome
      obtain ⟨k, hk, hjk, ho, hb, hmin⟩ :=
        ih (i0 + 1) (cum + fmtLen c fmt)
          (fun c2 hc2 => hwf c2 (List.mem_cons_of_mem c hc2)) j o hsome
      refine ⟨k + 1, by simpa using Nat.succ_lt_succ hk, by omega, ?_, ?_, ?_⟩
      · rw [prefChildLen_succ_cons]; omega
      · rw [prefChildLen_succ_cons, List.get_cons_succ]; omega
      · intro m hm
        cases m with
        | zero =>
          have : (c :: rest).get ⟨0, by simp⟩ = c := rfl
          rw [prefChildLen_zero, this]
          omega
        | succ m2 =>
          have hm2 : m2 < k := by omega
          have := hmin m2 hm2
          rw [prefChildLen_succ_cons, List.get_cons_succ]
          omega

/-- Claim C7: on a non-empty block whose children are all well rendered
(truthy format and an existing first child node),
getNativeIndexFromBlockIndex returns null exactly when the index exceeds
the total length of the block; otherwise it returns the first run whose
cumulative end reaches the index, with the intra-run offset of the
cumulative walk in which each embed occupies one unit. -/
theorem native_index_lookup (children : List ChildElement) (index : Int)
    (hne : children ≠ [])
    (hwf : ∀ c ∈ children, (truthyFormat c).isSome ∧ c.hasChild = true) :
    (getNativeIndexFromBlockIndex children index = none ↔ totalChildLen children < index)
    ∧ ∀ i o, getNativeIndexFromBlockIndex children index = some (i, o) →
        ∃ hi : i < children.length,
          o = index - prefChildLen children i
          ∧ index ≤ prefChildLen children i + childLen (children.get ⟨i, hi⟩)
          ∧ ∀ j, (hj : j < i) →
              prefChildLen children j + childLen (children.get ⟨j, Nat.lt_trans hj hi⟩) < index := by
  constructor
  · constructor
    · intro h
      by_contra hlt
      push_neg at hlt
      have hs := nativeLoop_isSome_of_le index children 0 0 hwf hne (by omega)
      unfold getNativeIndexFromBlockIndex at h
      rw [h] at hs
      simp at hs
    · intro h
      exact nativeLoop_none_of_lt index children 0 0 (by omega)
  · intro i o hsome
    obtain ⟨k, hk, hjk, ho, hb, hmin⟩ :=
      nativeLoop_some_spec index children 0 0 hwf i o hsome
    have hik : i = k := by omega
    subst hik
    refine ⟨hk, by omega, by omega, ?_⟩
    intro j hj
    have := hmin j hj
    omega

/-- Witness for native_index_lookup on a one-run text block at index 1. -/
theorem native_index_lookup_witness :
    (getNativeIndexFromBlockIndex [exChildText] 1 = none ↔ totalChildLen [exChildText] < 1)
    ∧ ∀ i o, getNativeIndexFromBlockIndex [exChildText] 1 = some (i, o) →
        ∃ hi : i < [exChildText].length,
          o = 1 - prefChildLen [exChildText] i
          ∧ 1 ≤ prefChildLen [exChildText] i + childLen ([exChildText].get ⟨i, hi⟩)
          ∧ ∀ j, (hj : j < i) →
              prefChildLen [exChildText] j + childLen ([exChildText].get ⟨j, Nat.lt_trans hj hi⟩) < 1 :=
  native_index_lookup [exChildText] 1 (by decide) (by decide)

/-- One recording step never grows the stack beyond the configured maximum
frame count. -/
theorem recordHistory_length (opts : HistoryOptions) (st : HistoryState) (src : Source)
    (op : JStr) (now : Int) (h : st.stack.length ≤ opts.maxStack) :
    (recordHistory opts st src op now).stack.length ≤ opts.maxStack := by
  unfold recordHistory
  by_cases hs : src = Source.user
  · rw [if_pos hs]
    dsimp only
    rcases hg : (if (match st.lastRecorded with
        | some t => decide (now - t < opts.delay)
        | none => false) = true then st.stack.getLast? else none) with _ | f
    · simp only [hg]
      split <;>
        · simp only [List.length_drop, List.length_append, List.length_cons,
            List.length_nil] at *
          omega
    · simp only [hg]
      have hne : st.stack ≠ [] := by
        by_contra he
        rw [he] at hg
        split at hg <;> simp at hg
      have hpos : 1 ≤ st.stack.length := List.length_pos.mpr hne
      simp only [List.length_append, List.length_dropLast, List.length_cons, List.length_nil]
      omega
  · rw [if_neg hs]
    exact h

/-- A non-user-sourced mutation leaves the history state untouched. -/
theorem recordHistory_non_user (opts : HistoryOptions) (st : HistoryState) (src : Source)
    (op : JStr) (now : Int) (h : src ≠ Source.user) :
    recordHistory opts st src op now = st := by
  unfold recordHistory
  rw [if_neg h]

/-- Claim C9: over every sequence of mutations the frame
count never exceeds the configured maximum, and mutations sourced silent or
collaborator never change the history state, in particular never increase
the stack size. -/
theorem history_stack_bounded (opts : HistoryOptions) (st : HistoryState)
    (ms : List (Source × JStr × Int)) (h : st.stack.length ≤ opts.maxStack) :
    (applyMutations opts st ms).stack.length ≤ opts.maxStack
    ∧ ∀ (s2 : HistoryState) (src : Source) (op : JStr) (now : Int), src ≠ Source.user →
        recordHistory opts s2 src op now = s2 := by
  constructor
  · induction ms generalizing st with
    | nil => exact h
    | cons m ms ih =>
      exact ih (recordHistory opts st m.1 m.2.1 m.2.2)
        (recordHistory_length opts st m.1 m.2.1 m.2.2 h)
  · intro s2 src op now hsrc
    exact recordHistory_non_user opts s2 src op now hsrc

/-- Witness for history_stack_bounded: four mutations against a bound of 2
leave at most 2 frames, and a silent mutation is a no-op. -/
theorem history_stack_bounded_witness :
    (applyMutations ⟨2, 10⟩ ⟨[], none⟩
      [(Source.user, "a".data, 0), (Source.user, "b".data, 100),
       (Source.user, "c".data, 200), (Source.silent, "d".data, 300)]).stack.length ≤ 2
    ∧ recordHistory ⟨2, 10⟩ ⟨[], none⟩ Source.silent "e".data 5 = ⟨[], none⟩ :=
  ⟨(history_stack_bounded ⟨2, 10⟩ ⟨[], none⟩
      [(Source.user, "a".data, 0), (Source.user, "b".data, 100),
       (Source.user, "c".data, 200), (Source.silent, "d".data, 300)] (by decide)).1,
   (history_stack_bounded ⟨2, 10⟩ ⟨[], none⟩ [] (by decide)).2
     ⟨[], none⟩ Source.silent "e".data 5 (by decide)⟩
